import Mathlib

/-!
Verification of the SWAR byte-search fallback of the `memchr` crate
(`src/lib.rs`, module `fallback`), embedded shallowly over `Nat`.

The haystack is a `List Nat` of byte values (each `< 256`) whose base
address is an explicit `ptr : Nat`; `usize` arithmetic is `Nat`
arithmetic modulo `2 ^ 64` (the `target_pointer_width = "64"` branch of
the source).  Raw word loads are byte reads from the list, assembled
little-endian.
-/

namespace Memchr

/-- Number of bytes in a machine word (`usize`) on the 64-bit targets of the
fallback module (`target_pointer_width = "64"`, `USIZE_BYTES = 8`). -/
def USIZE_BYTES : Nat := 8

/-- Modulus of `usize` arithmetic on a 64-bit target. -/
def WORD_MOD : Nat := 2 ^ 64

/-- The constant `LO_U64 = 0x0101010101010101`, truncated to `usize`
(`LO_USIZE`; on the 64-bit branch the truncation is the identity). -/
def LO_USIZE : Nat := 0x0101010101010101

/-- The constant `HI_U64 = 0x8080808080808080`, truncated to `usize`
(`HI_USIZE`). -/
def HI_USIZE : Nat := 0x8080808080808080

/-- Rust `usize::wrapping_sub` at 64 bits. -/
def wrappingSub (a b : Nat) : Nat := (a + (WORD_MOD - b % WORD_MOD)) % WORD_MOD

/-- Rust bitwise complement `!x` of a 64-bit `usize`. -/
def usizeNot (x : Nat) : Nat := (WORD_MOD - 1) ^^^ x

/-- The zero-byte filter `fallback::contains_zero_byte`:
`x.wrapping_sub(LO_USIZE) & !x & HI_USIZE != 0`. -/
def contains_zero_byte (x : Nat) : Bool :=
  wrappingSub x LO_USIZE &&& usizeNot x &&& HI_USIZE != 0

/-- Spread the byte `b` into every byte lane of a word
(`fallback::repeat_byte`, 64-bit branch):
`rep = b << 8 | b; rep = rep << 16 | rep; rep = rep << 32 | rep`. -/
def repeat_byte (b : Nat) : Nat :=
  let rep := (b <<< 8) ||| b
  let rep := (rep <<< 16) ||| rep
  (rep <<< 32) ||| rep

/-- Byte lane `i` of a word `w`, little-endian. -/
def byteAt (w i : Nat) : Nat := w / 256 ^ i % 256

/-- The `k` consecutive bytes of `text` starting at index `i`, read as a
little-endian integer; bytes past the end of the list read as zero. -/
def loadBytes : Nat → List Nat → Nat → Nat
  | 0, _, _ => 0
  | k + 1, text, i => text.getD i 0 + 256 * loadBytes k text (i + 1)

/-- The `usize` obtained by the raw load `*(ptr.offset(i as isize) as *const usize)`
when byte index `i` of the haystack `text` is dereferenced. -/
def loadWord (text : List Nat) (i : Nat) : Nat := loadBytes USIZE_BYTES text i

/-- Rust `iter().position(|elt| *elt == x)`: index of the first element
equal to `x`. -/
def position (x : Nat) : List Nat → Option Nat
  | [] => none
  | b :: l => if b == x then some 0 else (position x l).map (fun i => i + 1)

/-- Rust `iter().rposition(|elt| *elt == x)`: index (from the front) of the
last element equal to `x`. -/
def rposition (x : Nat) : List Nat → Option Nat
  | [] => none
  | b :: l =>
    match rposition x l with
    | some i => some (i + 1)
    | none => if b == x then some 0 else none

/-- Body loop of `fallback::memchr`: `while offset <= len - 2 * USIZE_BYTES`,
load the two words at byte indices `offset` and `offset + USIZE_BYTES`, stop at
the current `offset` if either word XORed with `repeated_x` passes the
zero-byte filter, otherwise advance `offset` by `2 * USIZE_BYTES`.  One unit of
`gas` is spent per iteration; `memchrLoopGas_stable` shows the result does not
depend on the gas once it covers every iteration the `while` loop performs. -/
def memchrLoopGas (repeated_x : Nat) (text : List Nat) (len : Nat) : Nat → Nat → Nat
  | 0, offset => offset
  | gas + 1, offset =>
    if offset ≤ len - 2 * USIZE_BYTES then
      let u := loadWord text offset
      let v := loadWord text (offset + USIZE_BYTES)
      let zu := contains_zero_byte (u ^^^ repeated_x)
      let zv := contains_zero_byte (v ^^^ repeated_x)
      if zu || zv then offset
      else memchrLoopGas repeated_x text len gas (offset + 2 * USIZE_BYTES)
    else offset

/-- Stopping offset of the `fallback::memchr` body loop; `len + 1` gas covers
every iteration the `while` loop can perform. -/
def memchrLoop (repeated_x : Nat) (text : List Nat) (len : Nat) (offset : Nat) : Nat :=
  memchrLoopGas repeated_x text len (len + 1) offset

/-- The part of `fallback::memchr` after the head scan: run the body loop
(guarded by `len >= 2 * USIZE_BYTES`), then scan `text[offset..]` per byte and
adjust the found index by the final offset. -/
def memchrTail (x : Nat) (text : List Nat) (offset : Nat) : Option Nat :=
  let len := text.length
  let repeated_x := repeat_byte x
  let offset1 := if 2 * USIZE_BYTES ≤ len then memchrLoop repeated_x text len offset else offset
  (position x (text.drop offset1)).map (fun i => offset1 + i)

/-- The SWAR fallback `fallback::memchr`.  `ptr` is the base address of the
haystack; the haystack bytes are `text`.  Head phase: if
`align = ptr & (USIZE_BYTES - 1)` is positive, scan the first
`min(USIZE_BYTES - align, len)` bytes per byte and return on a hit. -/
def memchr (x : Nat) (ptr : Nat) (text : List Nat) : Option Nat :=
  let len := text.length
  let align := ptr &&& (USIZE_BYTES - 1)
  if 0 < align then
    let offset := min (USIZE_BYTES - align) len
    match position x (text.take offset) with
    | some index => some index
    | none => memchrTail x text offset
  else
    memchrTail x text 0

/-- Body loop of `fallback::memrchr`: `while offset >= 2 * USIZE_BYTES`, load
the two words at byte indices `offset - 2 * USIZE_BYTES` and
`offset - USIZE_BYTES`, stop at the current `offset` on a filter hit, otherwise
decrement `offset` by `2 * USIZE_BYTES`.  One unit of `gas` is spent per
iteration; `memrchrLoopGas_stable` shows the result does not depend on the gas
once it covers every iteration the `while` loop performs. -/
def memrchrLoopGas (repeated_x : Nat) (text : List Nat) : Nat → Nat → Nat
  | 0, offset => offset
  | gas + 1, offset =>
    if 2 * USIZE_BYTES ≤ offset then
      let u := loadWord text (offset - 2 * USIZE_BYTES)
      let v := loadWord text (offset - USIZE_BYTES)
      let zu := contains_zero_byte (u ^^^ repeated_x)
      let zv := contains_zero_byte (v ^^^ repeated_x)
      if zu || zv then offset
      else memrchrLoopGas repeated_x text gas (offset - 2 * USIZE_BYTES)
    else offset

/-- Stopping offset of the `fallback::memrchr` body loop; `offset + 1` gas
covers every iteration the `while` loop can perform. -/
def memrchrLoop (repeated_x : Nat) (text : List Nat) (offset : Nat) : Nat :=
  memrchrLoopGas repeated_x text (offset + 1) offset

/-- The SWAR fallback `fallback::memrchr`.  Tail-align phase: if
`end_align = (ptr + len) & (USIZE_BYTES - 1)` is positive, reverse-scan the
final `min(USIZE_BYTES - end_align, len)` bytes per byte and return on a hit;
then run the body loop downwards and reverse-scan `text[..offset]`. -/
def memrchr (x : Nat) (ptr : Nat) (text : List Nat) : Option Nat :=
  let len := text.length
  let end_align := (ptr + len) &&& (USIZE_BYTES - 1)
  if 0 < end_align then
    let offset := len - min (USIZE_BYTES - end_align) len
    match rposition x (text.drop offset) with
    | some index => some (offset + index)
    | none => rposition x (text.take (memrchrLoop (repeat_byte x) text offset))
  else
    rposition x (text.take (memrchrLoop (repeat_byte x) text len))

/-- Modelled from the spec: the `target_os = "linux"` branch `memrchr_specific`
dispatches to the host routine `ffi::memrchr` (GNU libc `memrchr`), external C
code absent from the repository, modelled here as an arbitrary function `host`
from needle and haystack to an optional offset (a null pointer return mapped to
`none`).  The wrapper short-circuits an empty haystack to `none` and only
otherwise invokes the host routine. -/
def memrchrSpecificLinux (host : Nat → List Nat → Option Nat) (needle : Nat)
    (haystack : List Nat) : Option Nat :=
  if haystack.isEmpty then none else host needle haystack

/-- Step-indexed variant of `memchrLoop`, identical except that it returns
`none` when the loop has not exited within `fuel` iterations. -/
def memchrLoopFuel (repeated_x : Nat) (text : List Nat) (len : Nat) :
    Nat → Nat → Option Nat
  | 0, _ => none
  | fuel + 1, offset =>
    if offset ≤ len - 2 * USIZE_BYTES then
      let u := loadWord text offset
      let v := loadWord text (offset + USIZE_BYTES)
      if contains_zero_byte (u ^^^ repeated_x) || contains_zero_byte (v ^^^ repeated_x) then
        some offset
      else
        memchrLoopFuel repeated_x text len fuel (offset + 2 * USIZE_BYTES)
    else some offset

/-- Step-indexed variant of `memrchrLoop`, identical except that it returns
`none` when the loop has not exited within `fuel` iterations. -/
def memrchrLoopFuel (repeated_x : Nat) (text : List Nat) :
    Nat → Nat → Option Nat
  | 0, _ => none
  | fuel + 1, offset =>
    if 2 * USIZE_BYTES ≤ offset then
      let u := loadWord text (offset - 2 * USIZE_BYTES)
      let v := loadWord text (offset - USIZE_BYTES)
      if contains_zero_byte (u ^^^ repeated_x) || contains_zero_byte (v ^^^ repeated_x) then
        some offset
      else
        memrchrLoopFuel repeated_x text fuel (offset - 2 * USIZE_BYTES)
    else some offset

/-- Ledger of the absolute addresses at which the body loop of
`fallback::memrchr` performs raw word loads, mirroring `memrchrLoop` step by
step: every iteration entered with `offset >= 2 * USIZE_BYTES` dereferences
`ptr + offset - 2 * USIZE_BYTES` and `ptr + offset - USIZE_BYTES` before
testing the filter.  `fuel` bounds the number of iterations; since each
iteration lowers `offset` by `2 * USIZE_BYTES`, a fuel of `offset + 1`
always suffices. -/
def memrchrLoadsLoop (repeated_x ptr : Nat) (text : List Nat) :
    Nat → Nat → List Nat
  | 0, _ => []
  | fuel + 1, offset =>
    if 2 * USIZE_BYTES ≤ offset then
      let u := loadWord text (offset - 2 * USIZE_BYTES)
      let v := loadWord text (offset - USIZE_BYTES)
      (ptr + (offset - 2 * USIZE_BYTES)) :: (ptr + (offset - USIZE_BYTES)) ::
        (if contains_zero_byte (u ^^^ repeated_x) || contains_zero_byte (v ^^^ repeated_x)
          then []
          else memrchrLoadsLoop repeated_x ptr text fuel (offset - 2 * USIZE_BYTES))
    else []

/-- Absolute addresses of all raw word loads performed by `fallback::memrchr`
with needle `x` on the haystack `text` based at address `ptr` (loads happen
only when the tail-align scan does not return early). -/
def memrchrLoads (x ptr : Nat) (text : List Nat) : List Nat :=
  let len := text.length
  let end_align := (ptr + len) &&& (USIZE_BYTES - 1)
  if 0 < end_align then
    let offset := len - min (USIZE_BYTES - end_align) len
    match rposition x (text.drop offset) with
    | some _ => []
    | none => memrchrLoadsLoop (repeat_byte x) ptr text (offset + 1) offset
  else
    memrchrLoadsLoop (repeat_byte x) ptr text (len + 1) len

/-- The low-bytes mask `0x0101…01` over `n` byte lanes (auxiliary for the
analysis of `contains_zero_byte`). -/
def LOn : Nat → Nat
  | 0 => 0
  | n + 1 => 1 + 256 * LOn n

/-! ### Byte-lane arithmetic -/

lemma byteAt_lt (w i : Nat) : byteAt w i < 256 :=
  Nat.mod_lt _ (by norm_num)

lemma byteAt_zero (w : Nat) : byteAt w 0 = w % 256 := by
  simp [byteAt]

lemma byteAt_succ (w i : Nat) : byteAt w (i + 1) = byteAt (w / 256) i := by
  rw [byteAt, byteAt, Nat.div_div_eq_div_mul, pow_succ, mul_comm (256 ^ i) 256]

lemma LOn_lt (n : Nat) : LOn n < 256 ^ n := by
  induction n with
  | zero => simp [LOn]
  | succ n ih => simp only [LOn, pow_succ]; omega

lemma LOn_succ (n : Nat) : LOn (n + 1) = 1 + 256 * LOn n := rfl

lemma testBit_byte_split (a y k : Nat) (ha : a < 256) :
    (a + 256 * y).testBit k = if k < 8 then a.testBit k else y.testBit (k - 8) := by
  rcases Nat.lt_or_ge k 8 with hk | hk
  · rw [if_pos hk, Nat.testBit_to_div_mod, Nat.testBit_to_div_mod]
    have h0 : (2 : Nat) ^ k * (2 * 2 ^ (7 - k)) = 256 := by
      rw [← pow_succ', ← pow_add]
      have he : k + (7 - k + 1) = 8 := by omega
      rw [he]
      norm_num
    have h1 : 256 * y = 2 ^ k * (2 * (2 ^ (7 - k) * y)) := by
      rw [← h0]
      ring
    rw [h1, Nat.add_mul_div_left _ _ (Nat.two_pow_pos k), Nat.add_mul_mod_self_left]
  · rw [if_neg (by omega), Nat.testBit_to_div_mod, Nat.testBit_to_div_mod]
    have h2 : (2 : Nat) ^ k = 256 * 2 ^ (k - 8) := by
      rw [show (256 : Nat) = 2 ^ 8 by norm_num, ← pow_add]
      congr 1
      omega
    rw [h2, ← Nat.div_div_eq_div_mul, Nat.add_mul_div_left _ _ (by norm_num : (0:Nat) < 256),
      Nat.div_eq_of_lt ha, Nat.zero_add]

lemma byte_decomp_and (a b y z : Nat) (ha : a < 256) (hb : b < 256) :
    (a + 256 * y) &&& (b + 256 * z) = (a &&& b) + 256 * (y &&& z) := by
  have hab : a &&& b < 256 := Nat.and_lt_two_pow a (show b < 2 ^ 8 by norm_num at hb ⊢; exact hb)
  apply Nat.eq_of_testBit_eq
  intro i
  rw [Nat.testBit_and, testBit_byte_split a y i ha, testBit_byte_split b z i hb,
    testBit_byte_split _ _ i hab]
  by_cases h : i < 8
  · simp [h]
  · simp [h]

lemma byte_decomp_xor (a b y z : Nat) (ha : a < 256) (hb : b < 256) :
    (a + 256 * y) ^^^ (b + 256 * z) = (a ^^^ b) + 256 * (y ^^^ z) := by
  have hab : a ^^^ b < 256 := by
    have := Nat.xor_lt_two_pow (n := 8) (by norm_num at ha ⊢; exact ha)
      (by norm_num at hb ⊢; exact hb)
    norm_num at this
    exact this
  apply Nat.eq_of_testBit_eq
  intro i
  rw [Nat.testBit_xor, testBit_byte_split a y i ha, testBit_byte_split b z i hb,
    testBit_byte_split _ _ i hab]
  by_cases h : i < 8
  · simp [h]
  · simp [h]

lemma byte_decomp_mod (a y m : Nat) (ha : a < 256) (hm : 0 < m) :
    (a + 256 * y) % (256 * m) = a + 256 * (y % m) := by
  have h1 : a + 256 * y = (a + 256 * (y % m)) + (256 * m) * (y / m) := by
    conv_lhs => rw [← Nat.div_add_mod y m]
    ring
  rw [h1, Nat.add_mul_mod_self_left]
  apply Nat.mod_eq_of_lt
  have h2 : y % m < m := Nat.mod_lt y hm
  have h3 : 256 * (y % m) + 256 ≤ 256 * m := by
    have := Nat.mul_le_mul_left 256 (show y % m + 1 ≤ m by omega)
    simpa [Nat.mul_add] using this
  omega

/-! ### Exactness of the zero-byte filter -/

lemma xor255_lt (b : Nat) (hb : b < 256) : 255 ^^^ b < 256 := by
  have := Nat.xor_lt_two_pow (n := 8) (x := 255) (y := b) (by norm_num)
    (by norm_num at hb ⊢; exact hb)
  norm_num at this
  exact this

set_option maxRecDepth 4096 in
lemma low_lane_no_borrow : ∀ b : Nat, b < 256 → ∀ c : Nat, c < 2 → c < b →
    (b - 1 - c) &&& ((255 ^^^ b) &&& 128) = 0 := by decide

set_option maxRecDepth 4096 in
lemma low_lane_borrow : ∀ c : Nat, c < 2 → ∀ b : Nat, b ≤ c →
    (b + 255 - c) &&& ((255 ^^^ b) &&& 128) ≠ 0 := by decide

lemma czbGen (n : Nat) : ∀ c w : Nat, c ≤ 1 → w < 256 ^ n →
    ((((w + (256 ^ n - (LOn n + c))) % 256 ^ n) &&&
        (((256 ^ n - 1) ^^^ w) &&& (128 * LOn n)) ≠ 0)
      ↔ (0 < n ∧ (w % 256 ≤ c ∨ ∃ i, 0 < i ∧ i < n ∧ byteAt w i = 0))) := by
  induction n with
  | zero =>
    intro c w hc hw
    simp [LOn]
  | succ n ih =>
    intro c w hc hw
    have hb : w % 256 < 256 := Nat.mod_lt _ (by norm_num)
    have hsplit : w % 256 + 256 * (w / 256) = w := Nat.mod_add_div w 256
    have hP : (0 : Nat) < 256 ^ n := pow_pos (by norm_num) n
    have hw' : w / 256 < 256 ^ n := by
      rw [pow_succ] at hw
      omega
    have hLO : LOn n < 256 ^ n := LOn_lt n
    have hL1 : LOn (n + 1) = 1 + 256 * LOn n := rfl
    have hP1 : (256 : Nat) ^ (n + 1) = 256 * 256 ^ n := by rw [pow_succ, mul_comm]
    have hx255 : 255 ^^^ w % 256 < 256 := xor255_lt _ hb
    have hBdec : (256 ^ (n + 1) - 1) ^^^ w
        = (255 ^^^ w % 256) + 256 * ((256 ^ n - 1) ^^^ w / 256) := by
      have h2 : (256 : Nat) ^ (n + 1) - 1 = 255 + 256 * (256 ^ n - 1) := by
        rw [hP1]; omega
      conv_lhs => rw [h2, ← hsplit]
      exact byte_decomp_xor _ _ _ _ (by omega) hb
    have hHdec : 128 * LOn (n + 1) = 128 + 256 * (128 * LOn n) := by
      rw [hL1]; ring
    rcases Nat.lt_or_ge c (w % 256) with hcase | hcase
    · -- the low byte is above the borrow-in, so no borrow propagates upward
      have hAdec : (w + (256 ^ (n + 1) - (LOn (n + 1) + c))) % 256 ^ (n + 1)
          = (w % 256 - 1 - c) + 256 * ((w / 256 + (256 ^ n - (LOn n + 0))) % 256 ^ n) := by
        have h1 : w + (256 ^ (n + 1) - (LOn (n + 1) + c))
            = (w % 256 - 1 - c) + 256 * (w / 256 + (256 ^ n - (LOn n + 0))) := by
          rw [hL1, hP1]; omega
        rw [h1, hP1]
        exact byte_decomp_mod _ _ _ (by omega) hP
      rw [hAdec, hBdec, hHdec,
        byte_decomp_and _ _ _ _ hx255 (by norm_num),
        byte_decomp_and _ _ _ _ (by omega) (Nat.and_lt_two_pow _ (show (128:Nat) < 2 ^ 8 by norm_num)),
        low_lane_no_borrow (w % 256) hb c (by omega) hcase]
      have hzero : ∀ X : Nat, (0 + 256 * X ≠ 0 ↔ X ≠ 0) := by intro X; omega
      rw [hzero, ih 0 (w / 256) (by omega) hw']
      constructor
      · rintro ⟨hn, hd⟩
        refine ⟨Nat.succ_pos n, Or.inr ?_⟩
        rcases hd with h0 | ⟨i, hi0, hin, hz⟩
        · exact ⟨1, by omega, by omega, by rw [byteAt_succ, byteAt_zero]; omega⟩
        · exact ⟨i + 1, by omega, by omega, by rw [byteAt_succ]; exact hz⟩
      · rintro ⟨-, hd⟩
        rcases hd with h0 | ⟨i, hi0, hin, hz⟩
        · omega
        · cases i with
          | zero => omega
          | succ j =>
            rw [byteAt_succ] at hz
            cases j with
            | zero =>
              refine ⟨by omega, Or.inl ?_⟩
              rw [byteAt_zero] at hz
              omega
            | succ j2 =>
              exact ⟨by omega, Or.inr ⟨j2 + 1, by omega, by omega, hz⟩⟩
    · -- the low byte borrows: the low result lane always passes the filter
      have hAdec : (w + (256 ^ (n + 1) - (LOn (n + 1) + c))) % 256 ^ (n + 1)
          = (w % 256 + 255 - c) + 256 * ((w / 256 + (256 ^ n - (LOn n + 1))) % 256 ^ n) := by
        have h1 : w + (256 ^ (n + 1) - (LOn (n + 1) + c))
            = (w % 256 + 255 - c) + 256 * (w / 256 + (256 ^ n - (LOn n + 1))) := by
          rw [hL1, hP1]; omega
        rw [h1, hP1]
        exact byte_decomp_mod _ _ _ (by omega) hP
      rw [hAdec, hBdec, hHdec,
        byte_decomp_and _ _ _ _ hx255 (by norm_num),
        byte_decomp_and _ _ _ _ (by omega) (Nat.and_lt_two_pow _ (show (128:Nat) < 2 ^ 8 by norm_num))]
      have hlow := low_lane_borrow c (by omega) (w % 256) hcase
      apply iff_of_true
      · have hge : ∀ X : Nat, ((w % 256 + 255 - c) &&& ((255 ^^^ w % 256) &&& 128)) ≠ 0 →
            ((w % 256 + 255 - c) &&& ((255 ^^^ w % 256) &&& 128)) + 256 * X ≠ 0 := by
          intro X h
          omega
        exact hge _ hlow
      · exact ⟨Nat.succ_pos n, Or.inl hcase⟩

lemma contains_zero_byte_iff_aux (w : Nat) (hw : w < 2 ^ 64) :
    contains_zero_byte w = true ↔ ∃ i, i < 8 ∧ byteAt w i = 0 := by
  have c1 : WORD_MOD = 256 ^ 8 := by norm_num [WORD_MOD]
  have c2 : LO_USIZE % WORD_MOD = LOn 8 + 0 := by decide
  have c3 : HI_USIZE = 128 * LOn 8 := by decide
  have e1 : wrappingSub w LO_USIZE = (w + (256 ^ 8 - (LOn 8 + 0))) % 256 ^ 8 := by
    show (w + (WORD_MOD - LO_USIZE % WORD_MOD)) % WORD_MOD = _
    rw [c2, c1]
  have e2 : usizeNot w = (256 ^ 8 - 1) ^^^ w := by
    show (WORD_MOD - 1) ^^^ w = _
    rw [c1]
  have hw8 : w < 256 ^ 8 := by rw [← c1]; norm_num [WORD_MOD]; omega
  have hmain := czbGen 8 0 w (by omega) hw8
  have hb : contains_zero_byte w = true ↔
      wrappingSub w LO_USIZE &&& usizeNot w &&& HI_USIZE ≠ 0 := by
    simp [contains_zero_byte, bne_iff_ne]
  rw [hb, Nat.and_assoc, e1, e2, c3, hmain]
  constructor
  · rintro ⟨-, hd⟩
    rcases hd with h0 | ⟨i, -, hin, hz⟩
    · exact ⟨0, by omega, by rw [byteAt_zero]; omega⟩
    · exact ⟨i, hin, hz⟩
  · rintro ⟨i, hi, hz⟩
    refine ⟨by omega, ?_⟩
    cases i with
    | zero =>
      refine Or.inl ?_
      rw [byteAt_zero] at hz
      omega
    | succ j => exact Or.inr ⟨j + 1, by omega, hi, hz⟩

/-! ### Byte lanes of loaded words -/

lemma byteAt_xor (u v i : Nat) : byteAt (u ^^^ v) i = byteAt u i ^^^ byteAt v i := by
  have h : ∀ w : Nat, byteAt w i = (w >>> (8 * i)) % 2 ^ 8 := by
    intro w
    rw [Nat.shiftRight_eq_div_pow, byteAt]
    norm_num [pow_mul]
  rw [h, h, h]
  apply Nat.eq_of_testBit_eq
  intro k
  simp only [Nat.testBit_mod_two_pow, Nat.testBit_shiftRight, Nat.testBit_xor]
  by_cases hk : k < 8
  · simp [hk]
  · simp [hk]

lemma getD_lt (text : List Nat) (ht : ∀ b ∈ text, b < 256) (i : Nat) :
    text.getD i 0 < 256 := by
  rcases Nat.lt_or_ge i text.length with h | h
  · rw [List.getD_eq_getElem?_getD, List.getElem?_eq_getElem h]
    exact ht _ (List.getElem_mem h)
  · rw [List.getD_eq_getElem?_getD, List.getElem?_eq_none h]
    simp

lemma loadBytes_lt (text : List Nat) (ht : ∀ b ∈ text, b < 256) :
    ∀ k i, loadBytes k text i < 256 ^ k := by
  intro k
  induction k with
  | zero => intro i; simp [loadBytes]
  | succ k ih =>
    intro i
    have h1 := getD_lt text ht i
    have h2 := ih (i + 1)
    simp only [loadBytes, pow_succ]
    omega

lemma byteAt_loadBytes (text : List Nat) (ht : ∀ b ∈ text, b < 256) :
    ∀ k j i, j < k → byteAt (loadBytes k text i) j = text.getD (i + j) 0 := by
  intro k
  induction k with
  | zero => intro j i hj; omega
  | succ k ih =>
    intro j i hj
    cases j with
    | zero =>
      simp only [loadBytes, byteAt_zero, Nat.add_zero]
      rw [Nat.add_mul_mod_self_left, Nat.mod_eq_of_lt (getD_lt text ht i)]
    | succ j =>
      have hdiv : loadBytes (k + 1) text i / 256 = loadBytes k text (i + 1) := by
        simp only [loadBytes]
        rw [Nat.add_mul_div_left _ _ (by norm_num : (0:Nat) < 256),
          Nat.div_eq_of_lt (getD_lt text ht i), Nat.zero_add]
      rw [byteAt_succ, hdiv, ih j (i + 1) (by omega)]
      congr 1
      omega

lemma byteAt_loadWord (text : List Nat) (ht : ∀ b ∈ text, b < 256) (i j : Nat)
    (hj : j < USIZE_BYTES) : byteAt (loadWord text i) j = text.getD (i + j) 0 :=
  byteAt_loadBytes text ht USIZE_BYTES j i hj

lemma word_lt (text : List Nat) (ht : ∀ b ∈ text, b < 256) (i : Nat) :
    loadWord text i < 2 ^ 64 := by
  have h := loadBytes_lt text ht USIZE_BYTES i
  have he : (256 : Nat) ^ USIZE_BYTES = 2 ^ 64 := by norm_num [USIZE_BYTES]
  rw [he] at h
  exact h

set_option maxRecDepth 8192 in
lemma repeat_byte_lt : ∀ b : Nat, b < 256 → repeat_byte b < 2 ^ 64 := by decide

set_option maxRecDepth 8192 in
lemma repeat_byte_lane : ∀ b : Nat, b < 256 → ∀ j : Nat, j < 8 →
    byteAt (repeat_byte b) j = b := by decide

/-- A word pair window that fails the zero-byte filter contains no byte equal
to the needle. -/
lemma filter_no_match (x : Nat) (text : List Nat) (off : Nat)
    (hx : x < 256) (ht : ∀ b ∈ text, b < 256)
    (hf : contains_zero_byte (loadWord text off ^^^ repeat_byte x) = false) :
    ∀ j, j < USIZE_BYTES → text.getD (off + j) 0 ≠ x := by
  intro j hj hmatch
  have hu : loadWord text off < 2 ^ 64 := word_lt text ht off
  have hr : repeat_byte x < 2 ^ 64 := repeat_byte_lt x hx
  have hxor : loadWord text off ^^^ repeat_byte x < 2 ^ 64 := Nat.xor_lt_two_pow hu hr
  have hj8 : j < 8 := by simpa [USIZE_BYTES] using hj
  have hlane : byteAt (loadWord text off ^^^ repeat_byte x) j = 0 := by
    rw [byteAt_xor, byteAt_loadWord text ht off j hj, hmatch,
      repeat_byte_lane x hx j hj8, Nat.xor_self]
  have htrue := (contains_zero_byte_iff_aux _ hxor).mpr ⟨j, hj8, hlane⟩
  rw [hf] at htrue
  simp at htrue


/-! ### Body-loop invariants -/

lemma memchrLoopGas_unfold (repeated_x : Nat) (text : List Nat) (len gas offset : Nat) :
    memchrLoopGas repeated_x text len (gas + 1) offset =
      if offset ≤ len - 2 * USIZE_BYTES then
        if contains_zero_byte (loadWord text offset ^^^ repeated_x)
            || contains_zero_byte (loadWord text (offset + USIZE_BYTES) ^^^ repeated_x) then
          offset
        else memchrLoopGas repeated_x text len gas (offset + 2 * USIZE_BYTES)
      else offset := rfl

lemma memrchrLoopGas_unfold (repeated_x : Nat) (text : List Nat) (gas offset : Nat) :
    memrchrLoopGas repeated_x text (gas + 1) offset =
      if 2 * USIZE_BYTES ≤ offset then
        if contains_zero_byte (loadWord text (offset - 2 * USIZE_BYTES) ^^^ repeated_x)
            || contains_zero_byte (loadWord text (offset - USIZE_BYTES) ^^^ repeated_x) then
          offset
        else memrchrLoopGas repeated_x text gas (offset - 2 * USIZE_BYTES)
      else offset := rfl

/-- Once the gas covers every iteration left to the forward `while` loop,
adding more gas does not change the result. -/
lemma memchrLoopGas_stable (repeated_x : Nat) (text : List Nat) (len : Nat)
    (hlen : 2 * USIZE_BYTES ≤ len) :
    ∀ gas offset, len ≤ offset + 2 * USIZE_BYTES * gas →
      memchrLoopGas repeated_x text len (gas + 1) offset
        = memchrLoopGas repeated_x text len gas offset := by
  intro gas
  induction gas with
  | zero =>
    intro offset h
    have hg : ¬ (offset ≤ len - 2 * USIZE_BYTES) := by
      simp only [USIZE_BYTES] at hlen h ⊢
      omega
    rw [memchrLoopGas_unfold, if_neg hg]
    rfl
  | succ gas ih =>
    intro offset h
    conv_lhs => rw [memchrLoopGas_unfold]
    conv_rhs => rw [memchrLoopGas_unfold]
    by_cases hg : offset ≤ len - 2 * USIZE_BYTES
    · rw [if_pos hg, if_pos hg]
      by_cases hz : contains_zero_byte (loadWord text offset ^^^ repeated_x)
          || contains_zero_byte (loadWord text (offset + USIZE_BYTES) ^^^ repeated_x)
      · rw [if_pos hz, if_pos hz]
      · rw [if_neg hz, if_neg hz]
        apply ih
        simp only [USIZE_BYTES] at h ⊢
        omega
    · rw [if_neg hg, if_neg hg]

/-- Once the gas covers every iteration left to the reverse `while` loop,
adding more gas does not change the result. -/
lemma memrchrLoopGas_stable (repeated_x : Nat) (text : List Nat) :
    ∀ gas offset, offset ≤ 2 * USIZE_BYTES * gas →
      memrchrLoopGas repeated_x text (gas + 1) offset
        = memrchrLoopGas repeated_x text gas offset := by
  intro gas
  induction gas with
  | zero =>
    intro offset h
    have hg : ¬ (2 * USIZE_BYTES ≤ offset) := by
      simp only [USIZE_BYTES] at h ⊢
      omega
    rw [memrchrLoopGas_unfold, if_neg hg]
    rfl
  | succ gas ih =>
    intro offset h
    conv_lhs => rw [memrchrLoopGas_unfold]
    conv_rhs => rw [memrchrLoopGas_unfold]
    by_cases hg : 2 * USIZE_BYTES ≤ offset
    · rw [if_pos hg, if_pos hg]
      by_cases hz : contains_zero_byte (loadWord text (offset - 2 * USIZE_BYTES) ^^^ repeated_x)
          || contains_zero_byte (loadWord text (offset - USIZE_BYTES) ^^^ repeated_x)
      · rw [if_pos hz, if_pos hz]
      · rw [if_neg hz, if_neg hz]
        apply ih
        simp only [USIZE_BYTES] at h hg ⊢
        omega
    · rw [if_neg hg, if_neg hg]

lemma memrchrLoopGas_stable_ge (repeated_x : Nat) (text : List Nat)
    (gas gas2 offset : Nat) (h : offset ≤ 2 * USIZE_BYTES * gas) (hge : gas ≤ gas2) :
    memrchrLoopGas repeated_x text gas2 offset
      = memrchrLoopGas repeated_x text gas offset := by
  induction gas2 with
  | zero =>
    have hz : gas = 0 := by omega
    rw [hz]
  | succ gas2 ih =>
    rcases Nat.eq_or_lt_of_le hge with heq | hlt
    · rw [heq]
    · have hle : gas ≤ gas2 := by omega
      have h2 : offset ≤ 2 * USIZE_BYTES * gas2 := by
        have hm : 2 * USIZE_BYTES * gas ≤ 2 * USIZE_BYTES * gas2 :=
          Nat.mul_le_mul_left _ hle
        omega
      rw [memrchrLoopGas_stable repeated_x text gas2 offset h2, ih hle]

lemma memchrLoopGas_zero (repeated_x : Nat) (text : List Nat) (len offset : Nat) :
    memchrLoopGas repeated_x text len 0 offset = offset := rfl

lemma memrchrLoopGas_zero (repeated_x : Nat) (text : List Nat) (offset : Nat) :
    memrchrLoopGas repeated_x text 0 offset = offset := rfl

/-- One-step recurrence of the forward body loop, phrased on `memchrLoop`
itself: under the `len >= 2 * USIZE_BYTES` guard the gas bound is invisible. -/
lemma memchrLoop_unfold (repeated_x : Nat) (text : List Nat) (len offset : Nat)
    (hlen : 2 * USIZE_BYTES ≤ len) :
    memchrLoop repeated_x text len offset =
      if offset ≤ len - 2 * USIZE_BYTES then
        if contains_zero_byte (loadWord text offset ^^^ repeated_x)
            || contains_zero_byte (loadWord text (offset + USIZE_BYTES) ^^^ repeated_x) then
          offset
        else memchrLoop repeated_x text len (offset + 2 * USIZE_BYTES)
      else offset := by
  show memchrLoopGas repeated_x text len (len + 1) offset = _
  rw [memchrLoopGas_unfold]
  by_cases hg : offset ≤ len - 2 * USIZE_BYTES
  · rw [if_pos hg, if_pos hg]
    by_cases hz : contains_zero_byte (loadWord text offset ^^^ repeated_x)
        || contains_zero_byte (loadWord text (offset + USIZE_BYTES) ^^^ repeated_x)
    · rw [if_pos hz, if_pos hz]
    · rw [if_neg hz, if_neg hz]
      show memchrLoopGas repeated_x text len len (offset + 2 * USIZE_BYTES)
          = memchrLoopGas repeated_x text len (len + 1) (offset + 2 * USIZE_BYTES)
      refine (memchrLoopGas_stable repeated_x text len hlen len (offset + 2 * USIZE_BYTES) ?_).symm
      simp only [USIZE_BYTES]
      omega
  · rw [if_neg hg, if_neg hg]

/-- One-step recurrence of the reverse body loop, phrased on `memrchrLoop`
itself: the gas bound is invisible. -/
lemma memrchrLoop_unfold (repeated_x : Nat) (text : List Nat) (offset : Nat) :
    memrchrLoop repeated_x text offset =
      if 2 * USIZE_BYTES ≤ offset then
        if contains_zero_byte (loadWord text (offset - 2 * USIZE_BYTES) ^^^ repeated_x)
            || contains_zero_byte (loadWord text (offset - USIZE_BYTES) ^^^ repeated_x) then
          offset
        else memrchrLoop repeated_x text (offset - 2 * USIZE_BYTES)
      else offset := by
  show memrchrLoopGas repeated_x text (offset + 1) offset = _
  rw [memrchrLoopGas_unfold]
  by_cases hg : 2 * USIZE_BYTES ≤ offset
  · rw [if_pos hg, if_pos hg]
    by_cases hz : contains_zero_byte (loadWord text (offset - 2 * USIZE_BYTES) ^^^ repeated_x)
        || contains_zero_byte (loadWord text (offset - USIZE_BYTES) ^^^ repeated_x)
    · rw [if_pos hz, if_pos hz]
    · rw [if_neg hz, if_neg hz]
      show memrchrLoopGas repeated_x text offset (offset - 2 * USIZE_BYTES)
          = memrchrLoopGas repeated_x text (offset - 2 * USIZE_BYTES + 1) (offset - 2 * USIZE_BYTES)
      exact memrchrLoopGas_stable_ge repeated_x text (offset - 2 * USIZE_BYTES + 1) offset
        (offset - 2 * USIZE_BYTES) (by simp only [USIZE_BYTES]; omega)
        (by simp only [USIZE_BYTES] at hg ⊢; omega)
  · rw [if_neg hg, if_neg hg]

lemma memchrLoopGas_ge (repeated_x : Nat) (text : List Nat) (len : Nat) :
    ∀ gas offset, offset ≤ memchrLoopGas repeated_x text len gas offset := by
  intro gas
  induction gas with
  | zero => intro offset; rw [memchrLoopGas_zero]
  | succ gas ih =>
    intro offset
    rw [memchrLoopGas_unfold]
    by_cases hg : offset ≤ len - 2 * USIZE_BYTES
    · rw [if_pos hg]
      by_cases hz : contains_zero_byte (loadWord text offset ^^^ repeated_x)
          || contains_zero_byte (loadWord text (offset + USIZE_BYTES) ^^^ repeated_x)
      · rw [if_pos hz]
      · rw [if_neg hz]
        have := ih (offset + 2 * USIZE_BYTES)
        omega
    · rw [if_neg hg]

lemma memchrLoop_ge (repeated_x : Nat) (text : List Nat) (len offset : Nat) :
    offset ≤ memchrLoop repeated_x text len offset :=
  memchrLoopGas_ge repeated_x text len (len + 1) offset

lemma memchrLoopGas_le (repeated_x : Nat) (text : List Nat) (len : Nat)
    (hlen : 2 * USIZE_BYTES ≤ len) :
    ∀ gas offset, offset ≤ len → memchrLoopGas repeated_x text len gas offset ≤ len := by
  intro gas
  induction gas with
  | zero => intro offset hoff; rw [memchrLoopGas_zero]; exact hoff
  | succ gas ih =>
    intro offset hoff
    rw [memchrLoopGas_unfold]
    by_cases hg : offset ≤ len - 2 * USIZE_BYTES
    · rw [if_pos hg]
      by_cases hz : contains_zero_byte (loadWord text offset ^^^ repeated_x)
          || contains_zero_byte (loadWord text (offset + USIZE_BYTES) ^^^ repeated_x)
      · rw [if_pos hz]; exact hoff
      · rw [if_neg hz]
        exact ih (offset + 2 * USIZE_BYTES) (by simp only [USIZE_BYTES] at hg hlen ⊢; omega)
    · rw [if_neg hg]; exact hoff

lemma memchrLoop_le (repeated_x : Nat) (text : List Nat) (len offset : Nat)
    (hlen : 2 * USIZE_BYTES ≤ len) (hoff : offset ≤ len) :
    memchrLoop repeated_x text len offset ≤ len :=
  memchrLoopGas_le repeated_x text len hlen (len + 1) offset hoff

lemma memrchrLoopGas_le (repeated_x : Nat) (text : List Nat) :
    ∀ gas offset, memrchrLoopGas repeated_x text gas offset ≤ offset := by
  intro gas
  induction gas with
  | zero => intro offset; rw [memrchrLoopGas_zero]
  | succ gas ih =>
    intro offset
    rw [memrchrLoopGas_unfold]
    by_cases hg : 2 * USIZE_BYTES ≤ offset
    · rw [if_pos hg]
      by_cases hz : contains_zero_byte (loadWord text (offset - 2 * USIZE_BYTES) ^^^ repeated_x)
          || contains_zero_byte (loadWord text (offset - USIZE_BYTES) ^^^ repeated_x)
      · rw [if_pos hz]
      · rw [if_neg hz]
        have := ih (offset - 2 * USIZE_BYTES)
        omega
    · rw [if_neg hg]

lemma memrchrLoop_le (repeated_x : Nat) (text : List Nat) (offset : Nat) :
    memrchrLoop repeated_x text offset ≤ offset :=
  memrchrLoopGas_le repeated_x text (offset + 1) offset

/-- Every byte index skipped over by the forward body loop holds a byte
different from the needle. -/
lemma memchrLoopGas_no_match (x : Nat) (text : List Nat) (len : Nat)
    (hx : x < 256) (ht : ∀ b ∈ text, b < 256) :
    ∀ gas offset j, offset ≤ j → j < memchrLoopGas (repeat_byte x) text len gas offset →
      text.getD j 0 ≠ x := by
  intro gas
  induction gas with
  | zero =>
    intro offset j h1 h2
    rw [memchrLoopGas_zero] at h2
    omega
  | succ gas ih =>
    intro offset j h1 h2
    rw [memchrLoopGas_unfold] at h2
    split at h2
    case isTrue hg =>
      split at h2
      case isTrue hz => omega
      case isFalse hz =>
        simp only [Bool.or_eq_true, not_or, Bool.not_eq_true] at hz
        obtain ⟨hzu, hzv⟩ := hz
        rcases Nat.lt_or_ge j (offset + 2 * USIZE_BYTES) with hj | hj
        · rcases Nat.lt_or_ge j (offset + USIZE_BYTES) with hja | hja
          · have := filter_no_match x text offset hx ht hzu (j - offset) (by omega)
            rwa [show offset + (j - offset) = j by omega] at this
          · have := filter_no_match x text (offset + USIZE_BYTES) hx ht hzv
              (j - (offset + USIZE_BYTES)) (by omega)
            rwa [show offset + USIZE_BYTES + (j - (offset + USIZE_BYTES)) = j by omega] at this
        · exact ih (offset + 2 * USIZE_BYTES) j hj h2
    case isFalse hg => omega

lemma memchrLoop_no_match (x : Nat) (text : List Nat) (len : Nat)
    (hx : x < 256) (ht : ∀ b ∈ text, b < 256) (offset j : Nat)
    (h1 : offset ≤ j) (h2 : j < memchrLoop (repeat_byte x) text len offset) :
    text.getD j 0 ≠ x :=
  memchrLoopGas_no_match x text len hx ht (len + 1) offset j h1 h2

/-- Every byte index skipped over by the reverse body loop holds a byte
different from the needle. -/
lemma memrchrLoopGas_no_match (x : Nat) (text : List Nat)
    (hx : x < 256) (ht : ∀ b ∈ text, b < 256) :
    ∀ gas offset j, memrchrLoopGas (repeat_byte x) text gas offset ≤ j → j < offset →
      text.getD j 0 ≠ x := by
  intro gas
  induction gas with
  | zero =>
    intro offset j h1 h2
    rw [memrchrLoopGas_zero] at h1
    omega
  | succ gas ih =>
    intro offset j h1 h2
    rw [memrchrLoopGas_unfold] at h1
    split at h1
    case isTrue hg =>
      split at h1
      case isTrue hz => omega
      case isFalse hz =>
        simp only [Bool.or_eq_true, not_or, Bool.not_eq_true] at hz
        obtain ⟨hzu, hzv⟩ := hz
        rcases Nat.lt_or_ge j (offset - 2 * USIZE_BYTES) with hj | hj
        · exact ih (offset - 2 * USIZE_BYTES) j h1 hj
        · rcases Nat.lt_or_ge j (offset - USIZE_BYTES) with hja | hja
          · have := filter_no_match x text (offset - 2 * USIZE_BYTES) hx ht hzu
              (j - (offset - 2 * USIZE_BYTES)) (by omega)
            rwa [show offset - 2 * USIZE_BYTES + (j - (offset - 2 * USIZE_BYTES)) = j by omega]
              at this
          · have := filter_no_match x text (offset - USIZE_BYTES) hx ht hzv
              (j - (offset - USIZE_BYTES)) (by omega)
            rwa [show offset - USIZE_BYTES + (j - (offset - USIZE_BYTES)) = j by omega] at this
    case isFalse hg => omega

lemma memrchrLoop_no_match (x : Nat) (text : List Nat)
    (hx : x < 256) (ht : ∀ b ∈ text, b < 256) (offset j : Nat)
    (h1 : memrchrLoop (repeat_byte x) text offset ≤ j) (h2 : j < offset) :
    text.getD j 0 ≠ x :=
  memrchrLoopGas_no_match x text hx ht (offset + 1) offset j h1 h2

/-! ### Characterization of the per-byte reference scans -/

lemma getD_take (l : List Nat) (k j : Nat) (hj : j < k) :
    (l.take k).getD j 0 = l.getD j 0 := by
  rw [List.getD_eq_getElem?_getD, List.getD_eq_getElem?_getD, List.getElem?_take_of_lt hj]

lemma getD_drop (l : List Nat) (k j : Nat) :
    (l.drop k).getD j 0 = l.getD (k + j) 0 := by
  rw [List.getD_eq_getElem?_getD, List.getD_eq_getElem?_getD, List.getElem?_drop]

/-- `position` finds exactly the first index holding the needle. -/
lemma position_char (x : Nat) (l : List Nat) :
    (position x l = none ↔ ∀ j, j < l.length → l.getD j 0 ≠ x)
    ∧ ∀ i, (position x l = some i ↔
        i < l.length ∧ l.getD i 0 = x ∧ ∀ j, j < i → l.getD j 0 ≠ x) := by
  induction l with
  | nil =>
    constructor
    · simp [position]
    · intro i
      simp [position]
  | cons b t ih =>
    obtain ⟨ihn, ihs⟩ := ih
    by_cases hb : b = x
    · have hbeq : (b == x) = true := by simpa using hb
      have hpos : position x (b :: t) = some 0 := by simp [position, hbeq]
      constructor
      · rw [hpos]
        constructor
        · intro h
          simp at h
        · intro h
          have := h 0 (by simp)
          simp [hb] at this
      · intro i
        rw [hpos]
        constructor
        · intro h
          have hi : i = 0 := by
            have := Option.some.inj h
            omega
          subst hi
          refine ⟨by simp, by simpa using hb, ?_⟩
          intro j hj
          omega
        · rintro ⟨h1, h2, h3⟩
          have hi : i = 0 := by
            by_contra hne
            have := h3 0 (by omega)
            simp [hb] at this
          subst hi
          rfl
    · have hbeq : (b == x) = false := by simpa using hb
      have hpos : position x (b :: t) = (position x t).map (fun i => i + 1) := by
        simp [position, hbeq]
      constructor
      · rw [hpos, Option.map_eq_none', ihn]
        constructor
        · intro h j hj
          cases j with
          | zero =>
            simpa using hb
          | succ j =>
            rw [List.getD_cons_succ]
            exact h j (by simpa using hj)
        · intro h j hj
          have := h (j + 1) (by simpa using hj)
          rwa [List.getD_cons_succ] at this
      · intro i
        rw [hpos, Option.map_eq_some']
        constructor
        · rintro ⟨i0, hi0, hieq⟩
          obtain ⟨h1, h2, h3⟩ := (ihs i0).mp hi0
          subst hieq
          refine ⟨by simpa using h1, by simpa using h2, ?_⟩
          intro j hj
          cases j with
          | zero => simpa using hb
          | succ j =>
            rw [List.getD_cons_succ]
            exact h3 j (by omega)
        · rintro ⟨h1, h2, h3⟩
          cases i with
          | zero =>
            rw [List.getD_cons_zero] at h2
            exact absurd h2 hb
          | succ i0 =>
            refine ⟨i0, (ihs i0).mpr ⟨by simpa using h1, by simpa using h2, ?_⟩, rfl⟩
            intro j hj
            have := h3 (j + 1) (by omega)
            rwa [List.getD_cons_succ] at this

/-- `rposition` finds exactly the last index holding the needle. -/
lemma rposition_char (x : Nat) (l : List Nat) :
    (rposition x l = none ↔ ∀ j, j < l.length → l.getD j 0 ≠ x)
    ∧ ∀ i, (rposition x l = some i ↔
        i < l.length ∧ l.getD i 0 = x ∧ ∀ j, i < j → j < l.length → l.getD j 0 ≠ x) := by
  induction l with
  | nil =>
    constructor
    · simp [rposition]
    · intro i
      simp [rposition]
  | cons b t ih =>
    obtain ⟨ihn, ihs⟩ := ih
    cases hr : rposition x t with
    | some k =>
      have hpos : rposition x (b :: t) = some (k + 1) := by
        simp [rposition, hr]
      obtain ⟨hk1, hk2, hk3⟩ := (ihs k).mp hr
      constructor
      · rw [hpos]
        constructor
        · intro h
          simp at h
        · intro h
          have := h (k + 1) (by simpa using hk1)
          rw [List.getD_cons_succ] at this
          exact absurd hk2 this
      · intro i
        rw [hpos]
        constructor
        · intro h
          have hi : i = k + 1 := (Option.some.inj h).symm
          subst hi
          refine ⟨by simpa using hk1, by simpa using hk2, ?_⟩
          intro j hj1 hj2
          cases j with
          | zero => omega
          | succ j =>
            rw [List.getD_cons_succ]
            exact hk3 j (by omega) (by simpa using hj2)
        · rintro ⟨h1, h2, h3⟩
          cases i with
          | zero =>
            have := h3 (k + 1) (by omega) (by simpa using hk1)
            rw [List.getD_cons_succ] at this
            exact absurd hk2 this
          | succ i0 =>
            have hik : i0 = k := by
              have hi0 := (ihs i0).mpr ⟨by simpa using h1, by simpa using h2, ?_⟩
              · rw [hr] at hi0
                exact (Option.some.inj hi0).symm
              · intro j hj1 hj2
                have := h3 (j + 1) (by omega) (by simpa using hj2)
                rwa [List.getD_cons_succ] at this
            rw [hik]
    | none =>
      have hnone : ∀ j, j < t.length → t.getD j 0 ≠ x := ihn.mp hr
      by_cases hb : b = x
      · have hbeq : (b == x) = true := by simpa using hb
        have hpos : rposition x (b :: t) = some 0 := by
          simp [rposition, hr, hbeq]
        constructor
        · rw [hpos]
          constructor
          · intro h
            simp at h
          · intro h
            have := h 0 (by simp)
            simp [hb] at this
        · intro i
          rw [hpos]
          constructor
          · intro h
            have hi : i = 0 := (Option.some.inj h).symm
            subst hi
            refine ⟨by simp, by simpa using hb, ?_⟩
            intro j hj1 hj2
            cases j with
            | zero => omega
            | succ j =>
              rw [List.getD_cons_succ]
              exact hnone j (by simpa using hj2)
          · rintro ⟨h1, h2, h3⟩
            cases i with
            | zero => rfl
            | succ i0 =>
              rw [List.getD_cons_succ] at h2
              exact absurd h2 (hnone i0 (by simpa using h1))
      · have hbeq : (b == x) = false := by simpa using hb
        have hpos : rposition x (b :: t) = none := by
          simp [rposition, hr, hbeq]
        constructor
        · rw [hpos]
          constructor
          · intro h j hj
            cases j with
            | zero => simpa using hb
            | succ j =>
              rw [List.getD_cons_succ]
              exact hnone j (by simpa using hj)
          · intro h
            rfl
        · intro i
          rw [hpos]
          constructor
          · intro h
            simp at h
          · rintro ⟨h1, h2, h3⟩
            cases i with
            | zero =>
              rw [List.getD_cons_zero] at h2
              exact absurd h2 hb
            | succ i0 =>
              rw [List.getD_cons_succ] at h2
              exact absurd h2 (hnone i0 (by simpa using h1))

/-! ### The scanners agree with the reference scans -/

/-- After a head phase that found no needle below `off`, the body loop plus
tail scan of `fallback::memchr` produce exactly the first match of the whole
haystack. -/
lemma memchrTail_eq (x : Nat) (text : List Nat) (off : Nat)
    (hx : x < 256) (ht : ∀ b ∈ text, b < 256)
    (hoff : ∀ j, j < off → j < text.length → text.getD j 0 ≠ x)
    (_hoffle : off ≤ text.length) :
    memchrTail x text off = position x text := by
  simp only [memchrTail]
  set off1 := if 2 * USIZE_BYTES ≤ text.length
      then memchrLoop (repeat_byte x) text text.length off else off with hoff1
  have h1 : ∀ j, j < off1 → j < text.length → text.getD j 0 ≠ x := by
    intro j hj hjlen
    by_cases hlen : 2 * USIZE_BYTES ≤ text.length
    · rw [if_pos hlen] at hoff1
      rcases Nat.lt_or_ge j off with hjo | hjo
      · exact hoff j hjo hjlen
      · exact memchrLoop_no_match x text text.length hx ht off j hjo (by rw [← hoff1]; exact hj)
    · rw [if_neg hlen] at hoff1
      exact hoff j (by omega) hjlen
  cases hp : position x (text.drop off1) with
  | none =>
    simp only [Option.map_none']
    symm
    rw [(position_char x text).1]
    intro j hj
    rcases Nat.lt_or_ge j off1 with hjo | hjo
    · exact h1 j hjo hj
    · have := ((position_char x (text.drop off1)).1.mp hp) (j - off1)
        (by rw [List.length_drop]; omega)
      rwa [getD_drop, show off1 + (j - off1) = j by omega] at this
  | some i =>
    simp only [Option.map_some']
    symm
    rw [(position_char x text).2 (off1 + i)]
    obtain ⟨hi1, hi2, hi3⟩ := ((position_char x (text.drop off1)).2 i).mp hp
    rw [List.length_drop] at hi1
    refine ⟨by omega, by rwa [getD_drop] at hi2, ?_⟩
    intro j hj
    rcases Nat.lt_or_ge j off1 with hjo | hjo
    · exact h1 j hjo (by omega)
    · have := hi3 (j - off1) (by omega)
      rwa [getD_drop, show off1 + (j - off1) = j by omega] at this

/-- The SWAR forward scanner returns exactly the first match. -/
lemma memchr_eq_position (x ptr : Nat) (text : List Nat)
    (hx : x < 256) (ht : ∀ b ∈ text, b < 256) :
    memchr x ptr text = position x text := by
  simp only [memchr]
  by_cases ha : 0 < ptr &&& (USIZE_BYTES - 1)
  · rw [if_pos ha]
    cases hh : position x
        (text.take (min (USIZE_BYTES - (ptr &&& (USIZE_BYTES - 1))) text.length)) with
    | some i =>
      show some i = position x text
      symm
      obtain ⟨hi1, hi2, hi3⟩ := ((position_char x _).2 i).mp hh
      rw [List.length_take] at hi1
      rw [(position_char x text).2 i]
      refine ⟨by omega, by rwa [getD_take _ _ _ (by omega)] at hi2, ?_⟩
      intro j hj
      have := hi3 j hj
      rwa [getD_take _ _ _ (by omega)] at this
    | none =>
      show memchrTail x text _ = position x text
      apply memchrTail_eq x text _ hx ht
      · intro j hj hjlen
        have := ((position_char x _).1.mp hh) j (by rw [List.length_take]; omega)
        rwa [getD_take _ _ _ (by omega)] at this
      · exact Nat.min_le_right _ _
  · rw [if_neg ha]
    apply memchrTail_eq x text 0 hx ht
    · intro j hj
      omega
    · omega

/-- After a tail-align phase that found no needle at or above `off`, the body
loop plus head scan of `fallback::memrchr` produce exactly the last match of
the whole haystack. -/
lemma memrchrFinish_eq (x : Nat) (text : List Nat) (off : Nat)
    (hx : x < 256) (ht : ∀ b ∈ text, b < 256)
    (hoffle : off ≤ text.length)
    (hupper : ∀ j, off ≤ j → j < text.length → text.getD j 0 ≠ x) :
    rposition x (text.take (memrchrLoop (repeat_byte x) text off)) = rposition x text := by
  have hle : memrchrLoop (repeat_byte x) text off ≤ off := memrchrLoop_le _ _ _
  set off1 := memrchrLoop (repeat_byte x) text off with hoff1
  have hno : ∀ j, off1 ≤ j → j < text.length → text.getD j 0 ≠ x := by
    intro j hj1 hj2
    rcases Nat.lt_or_ge j off with hlt | hge
    · exact memrchrLoop_no_match x text hx ht off j hj1 hlt
    · exact hupper j hge hj2
  cases hp : rposition x (text.take off1) with
  | none =>
    symm
    rw [(rposition_char x text).1]
    intro j hj
    rcases Nat.lt_or_ge j off1 with hlt | hge
    · have := ((rposition_char x _).1.mp hp) j (by rw [List.length_take]; omega)
      rwa [getD_take _ _ _ hlt] at this
    · exact hno j hge hj
  | some i =>
    symm
    obtain ⟨hi1, hi2, hi3⟩ := ((rposition_char x _).2 i).mp hp
    rw [List.length_take] at hi1
    have hioff : i < off1 := by omega
    rw [(rposition_char x text).2 i]
    refine ⟨by omega, by rwa [getD_take _ _ _ hioff] at hi2, ?_⟩
    intro j hj hjlen
    rcases Nat.lt_or_ge j off1 with hlt | hge
    · have := hi3 j hj (by rw [List.length_take]; omega)
      rwa [getD_take _ _ _ hlt] at this
    · exact hno j hge hjlen

/-- The SWAR reverse scanner returns exactly the last match. -/
lemma memrchr_eq_rposition (x ptr : Nat) (text : List Nat)
    (hx : x < 256) (ht : ∀ b ∈ text, b < 256) :
    memrchr x ptr text = rposition x text := by
  simp only [memrchr]
  by_cases ha : 0 < (ptr + text.length) &&& (USIZE_BYTES - 1)
  · rw [if_pos ha]
    set off0 := text.length
        - min (USIZE_BYTES - ((ptr + text.length) &&& (USIZE_BYTES - 1))) text.length with hoff0
    cases hh : rposition x (text.drop off0) with
    | some i =>
      show some (off0 + i) = rposition x text
      symm
      obtain ⟨hi1, hi2, hi3⟩ := ((rposition_char x _).2 i).mp hh
      rw [List.length_drop] at hi1
      rw [(rposition_char x text).2 (off0 + i)]
      refine ⟨by omega, by rwa [getD_drop] at hi2, ?_⟩
      intro j hj hjlen
      have := hi3 (j - off0) (by omega) (by rw [List.length_drop]; omega)
      rwa [getD_drop, show off0 + (j - off0) = j by omega] at this
    | none =>
      show rposition x (text.take (memrchrLoop (repeat_byte x) text off0)) = rposition x text
      apply memrchrFinish_eq x text off0 hx ht (by omega)
      intro j hj1 hj2
      have := ((rposition_char x _).1.mp hh) (j - off0) (by rw [List.length_drop]; omega)
      rwa [getD_drop, show off0 + (j - off0) = j by omega] at this
  · rw [if_neg ha]
    apply memrchrFinish_eq x text text.length hx ht (Nat.le_refl _)
    intro j hj1 hj2
    omega

/-! ### Termination of the body loops -/

lemma memchrLoopFuel_unfold (repeated_x : Nat) (text : List Nat) (len fuel offset : Nat) :
    memchrLoopFuel repeated_x text len (fuel + 1) offset =
      if offset ≤ len - 2 * USIZE_BYTES then
        if contains_zero_byte (loadWord text offset ^^^ repeated_x)
            || contains_zero_byte (loadWord text (offset + USIZE_BYTES) ^^^ repeated_x) then
          some offset
        else memchrLoopFuel repeated_x text len fuel (offset + 2 * USIZE_BYTES)
      else some offset := rfl

lemma memrchrLoopFuel_unfold (repeated_x : Nat) (text : List Nat) (fuel offset : Nat) :
    memrchrLoopFuel repeated_x text (fuel + 1) offset =
      if 2 * USIZE_BYTES ≤ offset then
        if contains_zero_byte (loadWord text (offset - 2 * USIZE_BYTES) ^^^ repeated_x)
            || contains_zero_byte (loadWord text (offset - USIZE_BYTES) ^^^ repeated_x) then
          some offset
        else memrchrLoopFuel repeated_x text fuel (offset - 2 * USIZE_BYTES)
      else some offset := rfl

/-- With enough fuel the step-indexed forward loop exits (returns `some`) and
agrees with the loop's stopping offset. -/
lemma memchrLoopFuel_eq (repeated_x : Nat) (text : List Nat) (len : Nat)
    (hlen : 2 * USIZE_BYTES ≤ len) :
    ∀ g offset, len ≤ offset + 2 * USIZE_BYTES * g →
      memchrLoopFuel repeated_x text len (g + 1) offset
        = some (memchrLoopGas repeated_x text len (g + 1) offset) := by
  intro g
  induction g with
  | zero =>
    intro offset h
    have hg : ¬ (offset ≤ len - 2 * USIZE_BYTES) := by
      simp only [USIZE_BYTES] at hlen h ⊢
      omega
    rw [memchrLoopFuel_unfold, if_neg hg, memchrLoopGas_unfold, if_neg hg]
  | succ g ih =>
    intro offset h
    rw [memchrLoopFuel_unfold, memchrLoopGas_unfold]
    by_cases hg : offset ≤ len - 2 * USIZE_BYTES
    · rw [if_pos hg, if_pos hg]
      by_cases hz : contains_zero_byte (loadWord text offset ^^^ repeated_x)
          || contains_zero_byte (loadWord text (offset + USIZE_BYTES) ^^^ repeated_x)
      · rw [if_pos hz, if_pos hz]
      · rw [if_neg hz, if_neg hz]
        exact ih (offset + 2 * USIZE_BYTES) (by simp only [USIZE_BYTES] at h ⊢; omega)
    · rw [if_neg hg, if_neg hg]

/-- With enough fuel the step-indexed reverse loop exits (returns `some`) and
agrees with the loop's stopping offset. -/
lemma memrchrLoopFuel_eq (repeated_x : Nat) (text : List Nat) :
    ∀ g offset, offset ≤ 2 * USIZE_BYTES * g →
      memrchrLoopFuel repeated_x text (g + 1) offset
        = some (memrchrLoopGas repeated_x text (g + 1) offset) := by
  intro g
  induction g with
  | zero =>
    intro offset h
    have hg : ¬ (2 * USIZE_BYTES ≤ offset) := by
      simp only [USIZE_BYTES] at h ⊢
      omega
    rw [memrchrLoopFuel_unfold, if_neg hg, memrchrLoopGas_unfold, if_neg hg]
  | succ g ih =>
    intro offset h
    rw [memrchrLoopFuel_unfold, memrchrLoopGas_unfold]
    by_cases hg : 2 * USIZE_BYTES ≤ offset
    · rw [if_pos hg, if_pos hg]
      by_cases hz : contains_zero_byte (loadWord text (offset - 2 * USIZE_BYTES) ^^^ repeated_x)
          || contains_zero_byte (loadWord text (offset - USIZE_BYTES) ^^^ repeated_x)
      · rw [if_pos hz, if_pos hz]
      · rw [if_neg hz, if_neg hz]
        exact ih (offset - 2 * USIZE_BYTES) (by simp only [USIZE_BYTES] at h hg ⊢; omega)
    · rw [if_neg hg, if_neg hg]

lemma memchrLoop_total (repeated_x : Nat) (text : List Nat) (len offset : Nat)
    (hlen : 2 * USIZE_BYTES ≤ len) :
    memchrLoopFuel repeated_x text len (len + 1) offset
      = some (memchrLoop repeated_x text len offset) :=
  memchrLoopFuel_eq repeated_x text len hlen len offset (by simp only [USIZE_BYTES]; omega)

lemma memrchrLoop_total (repeated_x : Nat) (text : List Nat) (offset : Nat) :
    memrchrLoopFuel repeated_x text (offset + 1) offset
      = some (memrchrLoop repeated_x text offset) :=
  memrchrLoopFuel_eq repeated_x text offset offset (by simp only [USIZE_BYTES]; omega)

/-! ### Claim theorems -/

/-- C1: for every needle byte `x` and every byte sequence `text` (at any base
address `ptr`), the SWAR fallback `memchr` returns `some i` exactly when `i`
is the smallest index with `text[i] = x`, and returns `none` exactly when no
byte of `text` equals `x`. -/
theorem memchr_finds_first (x ptr : Nat) (text : List Nat)
    (hx : x < 256) (ht : ∀ b ∈ text, b < 256) :
    (∀ i, memchr x ptr text = some i ↔
      (i < text.length ∧ text.getD i 0 = x ∧ ∀ j, j < i → text.getD j 0 ≠ x))
    ∧ (memchr x ptr text = none ↔ ∀ j, j < text.length → text.getD j 0 ≠ x) := by
  constructor
  · intro i
    rw [memchr_eq_position x ptr text hx ht]
    exact (position_char x text).2 i
  · rw [memchr_eq_position x ptr text hx ht]
    exact (position_char x text).1

/-- Witness for C1 at needle `'z'`, haystack `"aaaaz"`. -/
theorem memchr_finds_first_witness :
    memchr 122 0 [97, 97, 97, 97, 122] = some 4 :=
  ((memchr_finds_first 122 0 [97, 97, 97, 97, 122] (by decide) (by decide)).1 4).mpr
    (by decide)

/-- C2: for every needle byte `x` and every byte sequence `text` (at any base
address `ptr`), the SWAR fallback `memrchr` returns `some i` exactly when `i`
is the largest index with `text[i] = x`, and returns `none` exactly when no
byte of `text` equals `x`. -/
theorem memrchr_finds_last (x ptr : Nat) (text : List Nat)
    (hx : x < 256) (ht : ∀ b ∈ text, b < 256) :
    (∀ i, memrchr x ptr text = some i ↔
      (i < text.length ∧ text.getD i 0 = x ∧
        ∀ j, i < j → j < text.length → text.getD j 0 ≠ x))
    ∧ (memrchr x ptr text = none ↔ ∀ j, j < text.length → text.getD j 0 ≠ x) := by
  constructor
  · intro i
    rw [memrchr_eq_rposition x ptr text hx ht]
    exact (rposition_char x text).2 i
  · rw [memrchr_eq_rposition x ptr text hx ht]
    exact (rposition_char x text).1

/-- Witness for C2 at needle `'z'`, haystack `"z\x00aaaa"`. -/
theorem memrchr_finds_last_witness :
    memrchr 122 0 [122, 0, 97, 97, 97, 97] = some 0 :=
  ((memrchr_finds_last 122 0 [122, 0, 97, 97, 97, 97] (by decide) (by decide)).1 0).mpr
    ⟨by decide, by decide, by
      intro j h1 h2
      have h6 : j < 6 := by simpa using h2
      interval_cases j <;> decide⟩

/-- C3: for every needle byte, both scanners return `none` on an empty
haystack, and the Linux `memrchr_specific` wrapper short-circuits an empty
haystack to `none` whatever the host routine would answer. -/
theorem empty_haystack_not_found (x ptr : Nat) (host : Nat → List Nat → Option Nat)
    (hx : x < 256) :
    memchr x ptr [] = none ∧ memrchr x ptr [] = none ∧
      memrchrSpecificLinux host x [] = none := by
  refine ⟨?_, ?_, rfl⟩
  · rw [memchr_eq_position x ptr [] hx (by simp)]
    rfl
  · rw [memrchr_eq_rposition x ptr [] hx (by simp)]
    rfl

/-- Witness for C3, with a host routine that would answer `some 5` if it were
consulted. -/
theorem empty_haystack_not_found_witness :
    memchr 97 3 [] = none ∧ memrchr 97 3 [] = none ∧
      memrchrSpecificLinux (fun _ _ => some 5) 97 [] = none :=
  empty_haystack_not_found 97 3 (fun _ _ => some 5) (by decide)

/-- C4: whenever `memchr` or `memrchr` returns `some i`, the index is inside
the haystack and the byte there equals the needle. -/
theorem found_index_in_bounds (x ptr i : Nat) (text : List Nat)
    (hx : x < 256) (ht : ∀ b ∈ text, b < 256) :
    (memchr x ptr text = some i → i < text.length ∧ text.getD i 0 = x)
    ∧ (memrchr x ptr text = some i → i < text.length ∧ text.getD i 0 = x) := by
  constructor
  · intro h
    rw [memchr_eq_position x ptr text hx ht] at h
    obtain ⟨h1, h2, -⟩ := ((position_char x text).2 i).mp h
    exact ⟨h1, h2⟩
  · intro h
    rw [memrchr_eq_rposition x ptr text hx ht] at h
    obtain ⟨h1, h2, -⟩ := ((rposition_char x text).2 i).mp h
    exact ⟨h1, h2⟩

/-- Witness for C4 at needle `'z'`, haystack `"aaaaz"`, index 4. -/
theorem found_index_in_bounds_witness :
    (memchr 122 0 [97, 97, 97, 97, 122] = some 4 →
      4 < ([97, 97, 97, 97, 122] : List Nat).length ∧ [97, 97, 97, 97, 122].getD 4 0 = 122)
    ∧ (memrchr 122 0 [97, 97, 97, 97, 122] = some 4 →
      4 < ([97, 97, 97, 97, 122] : List Nat).length ∧ [97, 97, 97, 97, 122].getD 4 0 = 122) :=
  found_index_in_bounds 122 0 4 [97, 97, 97, 97, 122] (by decide) (by decide)

/-- C5 fails on the code: on the 25-byte all-zero-but-one haystack based at
the word-aligned address 0, the reverse scanner's tail-align phase trims
`min(USIZE_BYTES - end_align, len) = 7` bytes instead of `end_align = 1`,
so the body loop raw-loads the words at absolute addresses 2 and 10, which
are not congruent to 0 modulo `USIZE_BYTES`.  (The loaded bytes do stay
inside the haystack.) -/
theorem memrchr_performs_unaligned_load :
    memrchrLoads 7 0 [0, 0, 7, 0, 0, 0, 0, 0, 0, 0, 0, 0, 0,
        0, 0, 0, 0, 0, 0, 0, 0, 0, 0, 0, 0] = [2, 10]
    ∧ 2 % USIZE_BYTES ≠ 0 ∧ 10 % USIZE_BYTES ≠ 0 := by
  refine ⟨by decide, by decide, by decide⟩

/-- C6: both body loops terminate — the step-indexed variants exit with
`some` within an explicit fuel bound and agree with the loops' stopping
offsets — and the stopping offsets stay inside the slice bounds used by the
subsequent per-byte scans (`text[offset..]` forward, `text[..offset]`
reverse), so no out-of-range slice index and no guard-violating subtraction
occurs. -/
theorem swar_loops_terminate (repeated_x : Nat) (text : List Nat) (len offset : Nat) :
    (2 * USIZE_BYTES ≤ len →
      memchrLoopFuel repeated_x text len (len + 1) offset
        = some (memchrLoop repeated_x text len offset))
    ∧ (memrchrLoopFuel repeated_x text (offset + 1) offset
        = some (memrchrLoop repeated_x text offset))
    ∧ (2 * USIZE_BYTES ≤ len → offset ≤ len → memchrLoop repeated_x text len offset ≤ len)
    ∧ memrchrLoop repeated_x text offset ≤ offset
    ∧ offset ≤ memchrLoop repeated_x text len offset := by
  exact ⟨fun hlen => memchrLoop_total repeated_x text len offset hlen,
    memrchrLoop_total repeated_x text offset,
    fun hlen hoff => memchrLoop_le repeated_x text len offset hlen hoff,
    memrchrLoop_le repeated_x text offset,
    memchrLoop_ge repeated_x text len offset⟩

/-- Witness for C6 on a 16-byte haystack. -/
theorem swar_loops_terminate_witness :
    (memchrLoopFuel 0 [1, 1, 1, 1, 1, 1, 1, 1, 1, 1, 1, 1, 1, 1, 1, 1] 16 17 0
      = some (memchrLoop 0 [1, 1, 1, 1, 1, 1, 1, 1, 1, 1, 1, 1, 1, 1, 1, 1] 16 0))
    ∧ (memrchrLoopFuel 0 [1, 1, 1, 1, 1, 1, 1, 1, 1, 1, 1, 1, 1, 1, 1, 1] 17 16
      = some (memrchrLoop 0 [1, 1, 1, 1, 1, 1, 1, 1, 1, 1, 1, 1, 1, 1, 1, 1] 16))
    ∧ memchrLoop 0 [1, 1, 1, 1, 1, 1, 1, 1, 1, 1, 1, 1, 1, 1, 1, 1] 16 0 ≤ 16
    ∧ memrchrLoop 0 [1, 1, 1, 1, 1, 1, 1, 1, 1, 1, 1, 1, 1, 1, 1, 1] 16 ≤ 16
    ∧ 0 ≤ memchrLoop 0 [1, 1, 1, 1, 1, 1, 1, 1, 1, 1, 1, 1, 1, 1, 1, 1] 16 0 := by
  have h := swar_loops_terminate 0 [1, 1, 1, 1, 1, 1, 1, 1, 1, 1, 1, 1, 1, 1, 1, 1] 16 16
  have h0 := swar_loops_terminate 0 [1, 1, 1, 1, 1, 1, 1, 1, 1, 1, 1, 1, 1, 1, 1, 1] 16 0
  exact ⟨h0.1 (by decide), h.2.1, h0.2.2.1 (by decide) (by decide), h.2.2.2.1, h0.2.2.2.2⟩

/-- C7: the zero-byte filter fires exactly when some byte lane of the word is
zero: for every 64-bit word `w`, `contains_zero_byte w = true` iff one of the
`USIZE_BYTES` byte lanes of `w` equals zero. -/
theorem contains_zero_byte_correct (w : Nat) (hw : w < WORD_MOD) :
    contains_zero_byte w = true ↔ ∃ i, i < USIZE_BYTES ∧ byteAt w i = 0 := by
  have h := contains_zero_byte_iff_aux w (by simpa [WORD_MOD] using hw)
  simpa [USIZE_BYTES] using h

/-- Witness for C7 at `w = 256` (low lane zero, second lane one). -/
theorem contains_zero_byte_correct_witness :
    (256 : Nat) < WORD_MOD
    ∧ (contains_zero_byte 256 = true ↔ ∃ i, i < USIZE_BYTES ∧ byteAt 256 i = 0) :=
  ⟨by decide, contains_zero_byte_correct 256 (by decide)⟩

/-- C8 as stated is false: no 64-bit word all of whose byte lanes are nonzero
makes `contains_zero_byte` return `true` — the filter has no false
positives. -/
theorem no_false_positive_filter :
    ¬ ∃ w, w < WORD_MOD ∧ (∀ i, i < USIZE_BYTES → byteAt w i ≠ 0)
        ∧ contains_zero_byte w = true := by
  rintro ⟨w, hw, hnz, htrue⟩
  obtain ⟨i, hi, hz⟩ := (contains_zero_byte_iff_aux w (by simpa [WORD_MOD] using hw)).mp htrue
  exact hnz i (by simpa [USIZE_BYTES] using hi) hz

/-- C8 amended: `contains_zero_byte` returns `false` on every 64-bit word
none of whose byte lanes equals zero; the zero-byte-detection filter never
triggers on a word containing no true zero byte. -/
theorem filter_exact_on_nonzero_bytes (w : Nat) (hw : w < WORD_MOD)
    (hnz : ∀ i, i < USIZE_BYTES → byteAt w i ≠ 0) :
    contains_zero_byte w = false := by
  cases hcb : contains_zero_byte w with
  | false => rfl
  | true =>
    exfalso
    obtain ⟨i, hi, hz⟩ :=
      (contains_zero_byte_iff_aux w (by simpa [WORD_MOD] using hw)).mp hcb
    exact hnz i (by simpa [USIZE_BYTES] using hi) hz

/-- Witness for the amended C8 at `w = 0x0101010101010180`, a word with a
high-bit-set byte adjacent to low-value bytes and no zero byte. -/
theorem filter_exact_on_nonzero_bytes_witness :
    (0x0101010101010180 : Nat) < WORD_MOD
    ∧ (∀ i, i < USIZE_BYTES → byteAt 0x0101010101010180 i ≠ 0)
    ∧ contains_zero_byte 0x0101010101010180 = false :=
  ⟨by decide, by decide, filter_exact_on_nonzero_bytes 0x0101010101010180 (by decide) (by decide)⟩

/-- C9: every one of the `USIZE_BYTES` byte lanes of `repeat_byte b` equals
`b`, for every byte `b`. -/
theorem repeat_byte_lanes (b : Nat) (hb : b < 256) :
    ∀ i, i < USIZE_BYTES → byteAt (repeat_byte b) i = b := by
  intro i hi
  exact repeat_byte_lane b hb i (by simpa [USIZE_BYTES] using hi)

/-- Witness for C9 at `b = 'a'`, lane 7. -/
theorem repeat_byte_lanes_witness : byteAt (repeat_byte 97) 7 = 97 :=
  repeat_byte_lanes 97 (by decide) 7 (by decide)

/-- C10: for every needle byte and byte contents, the results of the SWAR
fallback scanners are identical at any two base addresses: the output depends
only on the needle and the bytes, not on the starting alignment. -/
theorem result_independent_of_alignment (x ptr1 ptr2 : Nat) (text : List Nat)
    (hx : x < 256) (ht : ∀ b ∈ text, b < 256) :
    memchr x ptr1 text = memchr x ptr2 text
    ∧ memrchr x ptr1 text = memrchr x ptr2 text := by
  constructor
  · rw [memchr_eq_position x ptr1 text hx ht, memchr_eq_position x ptr2 text hx ht]
  · rw [memrchr_eq_rposition x ptr1 text hx ht, memrchr_eq_rposition x ptr2 text hx ht]

/-- Witness for C10 at base addresses 1 and 12. -/
theorem result_independent_of_alignment_witness :
    memchr 3 1 [1, 2, 3, 4, 5] = memchr 3 12 [1, 2, 3, 4, 5]
    ∧ memrchr 3 1 [1, 2, 3, 4, 5] = memrchr 3 12 [1, 2, 3, 4, 5] :=
  result_independent_of_alignment 3 1 12 [1, 2, 3, 4, 5] (by decide) (by decide)

end Memchr
